import Mathlib

/-!
Verification of the `beet` pack library core (`beet/library/base.py` and
`beet/library/resource_pack.py`) against its natural-language specification.

The Python code is shallowly embedded: Python dicts become insertion-ordered
association lists, Python sets become duplicate-free lists, JSON values become
a first-order inductive type, exceptions become `Option`/`Except` results, and
in-place mutation becomes explicit state passing.  Each embedded definition
mirrors one Python function; theorems state the specified properties.
-/

namespace BeetSpec

/-! ## Association lists (Python `dict` with insertion order) -/

variable {K : Type} {V : Type} [DecidableEq K]

/-- First value stored under a key (`d[k]` / `d.get(k)`). -/
def alGet? : List (K × V) → K → Option V
  | [], _ => none
  | (k', v) :: t, k => if k' = k then some v else alGet? t k

/-- Membership test for a key (`k in d`). -/
def alHasKey (l : List (K × V)) (k : K) : Bool :=
  (alGet? l k).isSome

/-- Assignment `d[k] = v`: replaces the value in place if the key exists,
otherwise appends the new entry at the end (Python dict insertion order). -/
def alSet : List (K × V) → K → V → List (K × V)
  | [], k, v => [(k, v)]
  | (k', v') :: t, k, v => if k' = k then (k, v) :: t else (k', v') :: alSet t k v

/-- Deletion `del d[k]`: removes the first entry with the given key. -/
def alDel : List (K × V) → K → List (K × V)
  | [], _ => []
  | (k', v') :: t, k => if k' = k then t else (k', v') :: alDel t k

theorem alGet?_alSet_self (l : List (K × V)) (k : K) (v : V) :
    alGet? (alSet l k v) k = some v := by
  induction l with
  | nil => simp [alSet, alGet?]
  | cons h t ih =>
    obtain ⟨k', v'⟩ := h
    by_cases hk : k' = k <;> simp [alSet, alGet?, hk, ih]

theorem alGet?_alSet_ne (l : List (K × V)) (k k' : K) (v : V) (h : k' ≠ k) :
    alGet? (alSet l k v) k' = alGet? l k' := by
  have hne : ¬(k = k') := fun hh => h hh.symm
  induction l with
  | nil => simp [alSet, alGet?, hne]
  | cons hd t ih =>
    obtain ⟨k₀, v₀⟩ := hd
    by_cases hk : k₀ = k
    · subst hk
      simp [alSet, alGet?, hne]
    · simp only [alSet, if_neg hk, alGet?]
      by_cases hk' : k₀ = k' <;> simp [hk', ih]

theorem alGet?_isSome_of_mem_keys (l : List (K × V)) (k : K)
    (h : k ∈ l.map Prod.fst) : (alGet? l k).isSome := by
  induction l with
  | nil => simp at h
  | cons hd t ih =>
    obtain ⟨k₀, v₀⟩ := hd
    by_cases hk : k₀ = k
    · simp [alGet?, hk]
    · simp only [List.map_cons, List.mem_cons] at h
      rcases h with rfl | h
      · simp [alGet?]
      · simp only [alGet?, if_neg hk]
        exact ih h

theorem mem_keys_of_alGet?_isSome (l : List (K × V)) (k : K)
    (h : (alGet? l k).isSome) : k ∈ l.map Prod.fst := by
  induction l with
  | nil => simp [alGet?] at h
  | cons hd t ih =>
    obtain ⟨k₀, v₀⟩ := hd
    by_cases hk : k₀ = k
    · simp [hk]
    · simp only [alGet?, if_neg hk] at h
      simp [ih h]

theorem keys_alSet (l : List (K × V)) (k : K) (v : V) :
    (alSet l k v).map Prod.fst = if alHasKey l k then l.map Prod.fst
      else l.map Prod.fst ++ [k] := by
  induction l with
  | nil => simp [alSet, alHasKey, alGet?]
  | cons hd t ih =>
    obtain ⟨k₀, v₀⟩ := hd
    by_cases hk : k₀ = k
    · simp [alSet, hk, alHasKey, alGet?]
    · have hkey : alHasKey ((k₀, v₀) :: t) k = alHasKey t k := by
        simp [alHasKey, alGet?, hk]
      simp only [alSet, if_neg hk, List.map_cons, hkey, ih]
      by_cases hh : alHasKey t k <;> simp [hh]

theorem nodup_keys_alSet (l : List (K × V)) (k : K) (v : V)
    (h : (l.map Prod.fst).Nodup) : ((alSet l k v).map Prod.fst).Nodup := by
  rw [keys_alSet]
  by_cases hh : alHasKey l k
  · simpa [hh]
  · rw [if_neg hh]
    rw [List.nodup_append]
    refine ⟨h, List.nodup_singleton k, fun a ha hb => ?_⟩
    rcases List.mem_singleton.1 hb with rfl
    have hs := alGet?_isSome_of_mem_keys l a ha
    exact hh (by simpa [alHasKey] using hs)

/-! ## Python string helpers -/

/-- Python `s.startswith(p)`. -/
def pyStartswith (s p : String) : Bool :=
  p.data.isPrefixOf s.data

theorem pyStartswith_iff (s p : String) :
    pyStartswith s p = true ↔ p.data <+: s.data := by
  simp [pyStartswith, List.isPrefixOf_iff_prefix]

theorem pyStartswith_refl (s : String) : pyStartswith s s = true := by
  simp [pyStartswith_iff]

theorem pyStartswith_trans {a b c : String}
    (h₁ : pyStartswith b a = true) (h₂ : pyStartswith c b = true) :
    pyStartswith c a = true := by
  rw [pyStartswith_iff] at *
  exact h₁.trans h₂

theorem pyStartswith_of_slash {p m : String}
    (h : pyStartswith p (m ++ "/") = true) : pyStartswith p m = true := by
  rw [pyStartswith_iff] at *
  refine List.IsPrefix.trans ?_ h
  rw [String.data_append]
  exact ⟨"/".data, rfl⟩

theorem length_lt_of_slash_cover {p m : String}
    (h : pyStartswith m (p ++ "/") = true) : p.data.length < m.data.length := by
  rw [pyStartswith_iff] at h
  have hlen := h.length_le
  rw [String.data_append, List.length_append] at hlen
  have h1 : "/".data.length = 1 := rfl
  rw [h1] at hlen
  omega

theorem length_le_of_pyStartswith {s p : String}
    (h : pyStartswith s p = true) : p.data.length ≤ s.data.length := by
  rw [pyStartswith_iff] at h
  exact h.length_le

/-! ## C1: `Pack.unveil` dedup (base.py lines 1170–1193)

`unveil(prefix, origin)` keeps, per origin, a set of already-mounted prefixes
(`self.unveiled[origin]`).  The embedding fixes one origin; the Python set
becomes a list, and the returned `Option String` records the argument of the
`mount` call when one is made. -/

/-- One call `pack.unveil(p, origin)` acting on the mounted set of that origin. -/
def unveilStep (mounted : List String) (p : String) : List String × Option String :=
  if p ∈ mounted then (mounted, none)
  else if mounted.any (fun mnt => pyStartswith p mnt) then (mounted, none)
  else ((mounted.filter fun mnt => !pyStartswith mnt p) ++ [p], some p)

/-- Sequence of `unveil` calls; the second component lists the prefixes passed
to `mount`, in order. -/
def unveilRun : List String → List String → List String × List String
  | mounted, [] => (mounted, [])
  | mounted, p :: ps =>
    let step := unveilStep mounted p
    let rest := unveilRun step.1 ps
    (rest.1, step.2.toList ++ rest.2)

/-- `mnt` is an ancestor directory of `p`, or equal to it. -/
def isAncestorOrSelf (mnt p : String) : Prop :=
  mnt = p ∨ pyStartswith p (mnt ++ "/") = true

/-- No element of the mounted set is a string prefix of another (the invariant
maintained by `unveil` from the initial empty set). -/
def noOverlap (mounted : List String) : Prop :=
  ∀ a ∈ mounted, ∀ b ∈ mounted, a ≠ b → pyStartswith a b = false

/-- C1: the sequence `unveil("a/b"); unveil("a"); unveil("a/b/c")` on a fresh
origin leaves the tracked set exactly `{"a"}` and mounts exactly twice, for
`"a/b"` and then `"a"`; in general a call is a no-op when a recorded prefix is
an ancestor of (or equal to) the new prefix, and when the new prefix is an
ancestor of recorded prefixes (and the tracked set satisfies the prefix-free
invariant that `unveil` maintains) those descendants are removed from the
tracked set, the new prefix is recorded, and `mount` is invoked. -/
theorem unveil_dedup :
    (unveilRun [] ["a/b", "a", "a/b/c"] = (["a"], ["a/b", "a"])) ∧
    (∀ mounted p, (∃ mnt ∈ mounted, isAncestorOrSelf mnt p) →
      unveilStep mounted p = (mounted, none)) ∧
    (∀ mounted p, noOverlap mounted →
      (∃ mnt ∈ mounted, pyStartswith mnt (p ++ "/") = true) →
      (unveilStep mounted p).2 = some p ∧ p ∈ (unveilStep mounted p).1 ∧
      (∀ mnt ∈ mounted, pyStartswith mnt (p ++ "/") = true →
        mnt ∉ (unveilStep mounted p).1) ∧
      (∀ mnt ∈ mounted, pyStartswith mnt p = false →
        mnt ∈ (unveilStep mounted p).1)) ∧
    (∀ mounted p, noOverlap mounted → noOverlap (unveilStep mounted p).1) := by
  refine ⟨by decide, ?_, ?_, ?_⟩
  · rintro mounted p ⟨mnt, hmem, hanc⟩
    rcases hanc with rfl | hsl
    · simp [unveilStep, hmem]
    · have hsw : pyStartswith p mnt = true := pyStartswith_of_slash hsl
      by_cases hmemp : p ∈ mounted
      · simp [unveilStep, hmemp]
      · have hany : mounted.any (fun mnt => pyStartswith p mnt) = true :=
          List.any_eq_true.2 ⟨mnt, hmem, hsw⟩
        simp [unveilStep, hmemp, hany]
  · rintro mounted p hno ⟨mnt₀, hmem₀, hdesc₀⟩
    have hpnot : p ∉ mounted := by
      intro hp
      have hsw : pyStartswith mnt₀ p = true := pyStartswith_of_slash hdesc₀
      have hne : mnt₀ ≠ p := by
        intro he
        subst he
        exact absurd (length_lt_of_slash_cover hdesc₀) (lt_irrefl _)
      have hf := hno mnt₀ hmem₀ p hp hne
      simp [hf] at hsw
    have hany : mounted.any (fun mnt => pyStartswith p mnt) = false := by
      rw [List.any_eq_false]
      intro x hx hpx
      have h1 : pyStartswith mnt₀ x = true :=
        pyStartswith_trans hpx (pyStartswith_of_slash hdesc₀)
      have hlen : x.data.length ≤ p.data.length := length_le_of_pyStartswith hpx
      have hlen2 : p.data.length < mnt₀.data.length := length_lt_of_slash_cover hdesc₀
      have hne : mnt₀ ≠ x := by
        intro he
        rw [he] at hlen2
        omega
      have hf := hno mnt₀ hmem₀ x hx hne
      simp [hf] at h1
    have hstep : unveilStep mounted p =
        ((mounted.filter fun mnt => !pyStartswith mnt p) ++ [p], some p) := by
      simp [unveilStep, hpnot, hany]
    refine ⟨by rw [hstep], by rw [hstep]; simp, ?_, ?_⟩
    · intro mnt hmem hdesc
      rw [hstep]
      simp only [List.mem_append, List.mem_filter, List.mem_singleton]
      rintro (⟨hm, hkeep⟩ | rfl)
      · have hw := pyStartswith_of_slash hdesc
        simp [hw] at hkeep
      · exact absurd (length_lt_of_slash_cover hdesc) (lt_irrefl _)
    · intro mnt hmem hns
      rw [hstep]
      simp only [List.mem_append, List.mem_filter, List.mem_singleton]
      exact Or.inl ⟨hmem, by simp [hns]⟩
  · intro mounted p hno
    by_cases hmem : p ∈ mounted
    · simpa [unveilStep, hmem] using hno
    · by_cases hany : mounted.any (fun mnt => pyStartswith p mnt) = true
      · simpa [unveilStep, hmem, hany] using hno
      · have hall : ∀ x ∈ mounted, pyStartswith p x = false := by
          intro x hx
          cases hxv : pyStartswith p x with
          | false => rfl
          | true => exact absurd (List.any_eq_true.2 ⟨x, hx, hxv⟩) hany
        have hstep : (unveilStep mounted p).1 =
            (mounted.filter fun mnt => !pyStartswith mnt p) ++ [p] := by
          simp [unveilStep, hmem, hany]
        rw [hstep]
        intro a ha b hb hab
        simp only [List.mem_append, List.mem_filter, List.mem_singleton] at ha hb
        rcases ha with ⟨ham, hak⟩ | rfl
        · rcases hb with ⟨hbm, _⟩ | rfl
          · exact hno a ham b hbm hab
          · simpa using hak
        · rcases hb with ⟨hbm, _⟩ | rfl
          · exact hall b hbm
          · exact absurd rfl hab

/-- Witness for `unveil_dedup`: concrete instantiations of the conditional
parts. -/
theorem unveil_dedup_witness :
    unveilStep ["a"] "a/b" = (["a"], none) ∧
    (unveilStep ["a/b"] "a").2 = some "a" := by
  constructor
  · exact unveil_dedup.2.1 ["a"] "a/b" ⟨"a", by decide, Or.inr (by decide)⟩
  · exact (unveil_dedup.2.2.1 ["a/b"] "a"
      (by
        intro a ha b hb hne
        rw [List.mem_singleton] at ha hb
        subst ha
        subst hb
        exact absurd rfl hne)
      ⟨"a/b", by decide, by decide⟩).1

/-! ## C2: `MergePolicy.merge_with_rules` (base.py lines 199–225)

`Drop` is an exception sentinel; raising it is modelled by the `dropped` /
`drop` constructors, and the `try ... except Drop` block by the `Option`
results below. -/

inductive RuleRes where
  | handled
  | passed
  | dropped
  deriving DecidableEq

/-- Result of `current.merge(incoming)` on a file: the returned boolean
together with the (possibly mutated in place) current file, or a raised
`Drop`. -/
inductive FileMergeRes (V : Type) where
  | res (b : Bool) (v : V)
  | drop

/-- A merge callback `(pack, path, current, conflict) -> bool`; the pack
argument is ambient state and omitted, raising `Drop` is the `dropped`
result. -/
def MergeRule (V : Type) : Type := String → V → V → RuleRes

/-- The `for rule in rules` loop inside `merge_with_rules`: `some true` when a
rule handled the conflict (`break`), `some false` when every rule passed (the
loop `else`), `none` when a rule raised `Drop`. -/
def runRules {V : Type} : List (MergeRule V) → String → V → V → Option Bool
  | [], _, _, _ => some false
  | r :: rs, path, c, v =>
    match r path c v with
    | .handled => some true
    | .passed => runRules rs path c v
    | .dropped => none

/-- The `try` block of `merge_with_rules` for one conflicting key: the final
value stored under the key, or `none` when the entry is deleted because `Drop`
was raised (by a callback or by the fallback `current.merge(value)`). -/
def mergeEntry {V : Type} (rules : List (MergeRule V))
    (fstep : V → V → FileMergeRes V) (path : String) (c v : V) : Option V :=
  match runRules rules path c v with
  | none => none
  | some true => some c
  | some false =>
    match fstep c v with
    | .res true v' => some v'
    | .res false _ => some v
    | .drop => none

/-- `MergePolicy.merge_with_rules`: walks the incoming mapping, resolving each
key with `map_rules`; always returns `True`, paired here with the updated
current mapping. -/
def merge_with_rules {V : Type} (mapRules : String → String × List (MergeRule V))
    (fstep : V → V → FileMergeRes V) (cur other : List (String × V)) :
    Bool × List (String × V) :=
  (true, other.foldl (fun acc kv =>
    match alGet? acc kv.1 with
    | none => alSet acc kv.1 kv.2
    | some c =>
      match mergeEntry (mapRules kv.1).2 fstep (mapRules kv.1).1 c kv.2 with
      | some v' => alSet acc kv.1 v'
      | none => alDel acc kv.1) cur)

theorem runRules_append_passed {V : Type} (path : String) (c v : V)
    (pre rs : List (MergeRule V)) (h : ∀ r' ∈ pre, r' path c v = .passed) :
    runRules (pre ++ rs) path c v = runRules rs path c v := by
  induction pre with
  | nil => rfl
  | cons r₀ t ih =>
    have h₀ : r₀ path c v = .passed := h r₀ (List.mem_cons_self r₀ t)
    simp only [List.cons_append, runRules, h₀]
    exact ih fun r' hr' => h r' (List.mem_cons_of_mem r₀ hr')

/-- C2: callbacks run in order, the first `True` stops processing and keeps
the current value; if all return `False` the fallback `current.merge` runs and
a `False` there overwrites with the incoming value; `Drop` (from a callback or
the fallback) deletes the key without propagating, the walk continues with the
remaining keys, and `merge_with_rules` always returns `True`. -/
theorem merge_with_rules_spec :
    ∀ (V : Type) (fstep : V → V → FileMergeRes V) (path : String) (c v : V),
    (∀ (pre : List (MergeRule V)) r post, (∀ r' ∈ pre, r' path c v = .passed) →
      r path c v = .handled →
      mergeEntry (pre ++ r :: post) fstep path c v = some c) ∧
    (∀ (pre : List (MergeRule V)) r post, (∀ r' ∈ pre, r' path c v = .passed) →
      r path c v = .dropped →
      mergeEntry (pre ++ r :: post) fstep path c v = none) ∧
    (∀ (rules : List (MergeRule V)) v', (∀ r ∈ rules, r path c v = .passed) →
      fstep c v = .res false v' → mergeEntry rules fstep path c v = some v) ∧
    (∀ (rules : List (MergeRule V)) v', (∀ r ∈ rules, r path c v = .passed) →
      fstep c v = .res true v' → mergeEntry rules fstep path c v = some v') ∧
    (∀ (rules : List (MergeRule V)), (∀ r ∈ rules, r path c v = .passed) →
      fstep c v = .drop → mergeEntry rules fstep path c v = none) ∧
    (∀ mapRules cur other,
      (merge_with_rules (V := V) mapRules fstep cur other).1 = true) ∧
    (∀ mapRules cur other k c', alGet? cur k = some c' →
      mergeEntry (mapRules k).2 fstep (mapRules k).1 c' v = none →
      merge_with_rules mapRules fstep cur ((k, v) :: other) =
        merge_with_rules mapRules fstep (alDel cur k) other) := by
  intro V fstep path c v
  have hpassed : ∀ (rules : List (MergeRule V)),
      (∀ r ∈ rules, r path c v = .passed) →
      runRules rules path c v = some false := by
    intro rules h
    have := runRules_append_passed path c v rules [] h
    simpa using this
  refine ⟨?_, ?_, ?_, ?_, ?_, ?_, ?_⟩
  · intro pre r post hpre hr
    unfold mergeEntry
    rw [runRules_append_passed path c v pre _ hpre]
    simp [runRules, hr]
  · intro pre r post hpre hr
    unfold mergeEntry
    rw [runRules_append_passed path c v pre _ hpre]
    simp [runRules, hr]
  · intro rules v' hall hf
    unfold mergeEntry
    rw [hpassed rules hall]
    simp [hf]
  · intro rules v' hall hf
    unfold mergeEntry
    rw [hpassed rules hall]
    simp [hf]
  · intro rules hall hf
    unfold mergeEntry
    rw [hpassed rules hall]
    simp [hf]
  · intro mapRules cur other
    rfl
  · intro mapRules cur other k c' hget hdrop
    simp [merge_with_rules, hget, hdrop]

/-- Witness for `merge_with_rules_spec`: each conditional part instantiated at
concrete rules and values. -/
theorem merge_with_rules_spec_witness :
    mergeEntry [fun _ _ _ => RuleRes.passed, fun _ _ _ => RuleRes.handled]
      (fun _ v => FileMergeRes.res false v) "p" (1 : Nat) 2 = some 1 ∧
    mergeEntry [fun _ _ _ => RuleRes.passed]
      (fun _ v => FileMergeRes.res false v) "p" (1 : Nat) 2 = some 2 ∧
    mergeEntry [fun _ _ _ => RuleRes.dropped]
      (fun _ v => FileMergeRes.res false v) "p" (1 : Nat) 2 = none ∧
    merge_with_rules (fun k => (k, [fun _ _ _ => RuleRes.dropped]))
      (fun _ v => FileMergeRes.res false v) [("k", (1 : Nat))] [("k", 2), ("m", 5)] =
      merge_with_rules (fun k => (k, [fun _ _ _ => RuleRes.dropped]))
        (fun _ v => FileMergeRes.res false v) (alDel [("k", (1 : Nat))] "k") [("m", 5)] := by
  have hpre : ∀ r' ∈ ([fun _ _ _ => RuleRes.passed] : List (MergeRule Nat)),
      r' "p" (1 : Nat) 2 = .passed := by
    intro r' hr'
    rw [List.mem_singleton] at hr'
    subst hr'
    rfl
  refine ⟨?_, ?_, ?_, ?_⟩
  · exact (merge_with_rules_spec Nat (fun _ v => FileMergeRes.res false v) "p" 1 2).1
      [fun _ _ _ => RuleRes.passed] _ [] hpre rfl
  · exact (merge_with_rules_spec Nat (fun _ v => FileMergeRes.res false v) "p" 1 2).2.2.1
      [fun _ _ _ => RuleRes.passed] 2 hpre rfl
  · exact (merge_with_rules_spec Nat (fun _ v => FileMergeRes.res false v) "p" 1 2).2.1
      [] _ [] (by intro r' hr'; simp at hr') rfl
  · exact (merge_with_rules_spec Nat (fun _ v => FileMergeRes.res false v) "k" 1 2).2.2.2.2.2.2
      _ [("k", 1)] [("m", 5)] "k" 1 (by decide) rfl

/-! ## JSON values

Python JSON data (`JsonDict` contents) as a first-order inductive type:
arrays and objects are encoded as cons spines so that all recursion stays
structural and kernel-computable.  Objects keep insertion order, mirroring
Python dicts. -/

inductive J where
  | jstr (s : String)
  | jnum (n : Int)
  | jbool (b : Bool)
  | jnull
  | anil
  | acons (hd tl : J)
  | onil
  | ocons (k : String) (v : J) (tl : J)
  deriving DecidableEq

/-- Python `d.get(k)` on an object (returns `None`, i.e. `none`, when the key
is absent or the value is not a dict). -/
def jget : J → String → Option J
  | .ocons k v tl, key => if k = key then some v else jget tl key
  | _, _ => none

/-- Python `d.get(k, dflt)`. -/
def jgetD (d : J) (k : String) (dflt : J) : J :=
  (jget d k).getD dflt

/-- Python `k in d`. -/
def jhas (d : J) (k : String) : Bool :=
  (jget d k).isSome

/-- Python `d[k] = v` on an object: replace in place or append; a no-op on
non-dict values (where Python would raise). -/
def jset : J → String → J → J
  | .ocons k' v' tl, k, v => if k' = k then .ocons k v tl else .ocons k' v' (jset tl k v)
  | .onil, k, v => .ocons k v .onil
  | other, _, _ => other

/-- Number of fields of an object spine. -/
def olen : J → Nat
  | .ocons _ _ tl => 1 + olen tl
  | _ => 0

/-- The value is a well-formed object spine (a Python dict). -/
def isObjSpine : J → Bool
  | .onil => true
  | .ocons _ _ tl => isObjSpine tl
  | _ => false

mutual
/-- Python `==` on JSON values: scalars by value, lists pointwise, dicts by
key set and per-key equality (insertion order is ignored). -/
def pyEq : J → J → Bool
  | .jstr x, .jstr y => x == y
  | .jnum x, .jnum y => x == y
  | .jbool x, .jbool y => x == y
  | .jnull, .jnull => true
  | .anil, .anil => true
  | .acons h t, .acons h' t' => pyEq h h' && pyEq t t'
  | .ocons k v tl, b => (1 + olen tl == olen b) &&
      (match jget b k with
       | some w => pyEq v w
       | none => false) && osub tl b
  | .onil, .onil => true
  | _, _ => false

/-- Every field of the first object spine occurs with a `pyEq`-equal value in
the second object. -/
def osub : J → J → Bool
  | .ocons k v tl, b =>
      (match jget b k with
       | some w => pyEq v w
       | none => false) && osub tl b
  | _, _ => true
end

/-- Python truthiness of a JSON value. -/
def truthy : J → Bool
  | .jstr s => !(s == "")
  | .jnum n => !(n == 0)
  | .jbool b => b
  | .jnull => false
  | .anil => false
  | .acons _ _ => true
  | .onil => false
  | .ocons _ _ _ => true

/-- Array spine to list (empty for non-arrays). -/
def aToList : J → List J
  | .acons h t => h :: aToList t
  | _ => []

/-- List to array spine. -/
def aOfList : List J → J
  | [] => .anil
  | h :: t => .acons h (aOfList t)

theorem jget_jset_ne (d : J) (k k' : String) (v : J) (h : k' ≠ k) :
    jget (jset d k v) k' = jget d k' := by
  have hne : ¬(k = k') := fun hh => h hh.symm
  induction d with
  | ocons k₀ v₀ tl ihv ihtl =>
    by_cases hk : k₀ = k
    · have hk'0 : ¬(k₀ = k') := by rw [hk]; exact hne
      simp [jset, hk, jget, hne, hk'0]
    · simp only [jset, if_neg hk, jget]
      by_cases hk' : k₀ = k' <;> simp [hk', ihtl]
  | onil => simp [jset, jget, hne]
  | _ => rfl

theorem jget_jset_self (d : J) (k : String) (v : J) (h : isObjSpine d = true) :
    jget (jset d k v) k = some v := by
  induction d with
  | ocons k₀ v₀ tl ihv ihtl =>
    by_cases hk : k₀ = k
    · simp [jset, hk, jget]
    · simp only [jset, if_neg hk, jget, if_neg hk]
      exact ihtl (by simpa [isObjSpine] using h)
  | onil => simp [jset, jget]
  | _ => simp [isObjSpine] at h

/-! ## C5: `Model.merge` (resource_pack.py lines 58–76) -/

/-- The enumerate-based inner search `for i, override in enumerate(...)`. -/
def pyFindIdx {α : Type} (p : α → Bool) : List α → Option Nat
  | [] => none
  | x :: xs => if p x then some 0 else (pyFindIdx p xs).map (· + 1)

theorem pyFindIdx_lt_length {α : Type} (p : α → Bool) (l : List α) (i : Nat)
    (h : pyFindIdx p l = some i) : i < l.length := by
  induction l generalizing i with
  | nil => simp [pyFindIdx] at h
  | cons x xs ih =>
    simp only [pyFindIdx] at h
    by_cases hp : p x
    · rw [if_pos hp] at h
      cases h
      simp
    · rw [if_neg hp] at h
      obtain ⟨j, hj, rfl⟩ := Option.map_eq_some'.1 h
      have := ih j hj
      simp only [List.length_cons]
      omega

/-- Python `==` between two `override.get("predicate")` results (`None` when
the key is absent; `None == None` is `True`). -/
def predEq : Option J → Option J → Bool
  | none, none => true
  | some a, some b => pyEq a b
  | _, _ => false

/-- Index of the first override of `so` whose predicate equals the predicate
of `o`. -/
def modelMatchIdx (so : List J) (o : J) : Option Nat :=
  pyFindIdx (fun ov => predEq (jget ov "predicate") (jget o "predicate")) so

/-- The `for other_override in other.data.get("overrides", [])` loop of
`Model.merge`; `so` is the untouched `overrides` list of `self` which the
inner search scans, `merged` the accumulating copy.  The `KeyError` that
Python would raise on a matching entry without `"model"` is not modelled
(`jgetD` with `jnull`). -/
def modelMergeLoop (so : List J) : List J → List J → List J
  | merged, [] => merged
  | merged, o :: rest =>
    match modelMatchIdx so o with
    | some i =>
      modelMergeLoop so
        (merged.set i (jset (merged.getD i J.jnull) "model" (jgetD o "model" J.jnull))) rest
    | none => modelMergeLoop so (merged ++ [o]) rest

/-- Overrides list of a model's data. -/
def modelOverrides (d : J) : List J :=
  aToList (jgetD d "overrides" J.anil)

/-- The merged overrides list produced by `Model.merge`. -/
def modelOverridesUnion (a b : J) : List J :=
  modelMergeLoop (modelOverrides a) (modelOverrides a) (modelOverrides b)

/-- `Model.merge`: returns the boolean result and the new `self.data`
(`self.data = dict(other.data)` followed by `self.data["overrides"] =
merged_overrides` when the merged list is non-empty). -/
def modelMerge (selfData otherData : J) : Bool × J :=
  (true, if (modelOverridesUnion selfData otherData).isEmpty then otherData
         else jset otherData "overrides" (aOfList (modelOverridesUnion selfData otherData)))

/-- One update step of the overrides loop, for the declarative decomposition
of `modelMergeLoop`. -/
def applyUpdStep (so : List J) (acc : List J) (o : J) : List J :=
  match modelMatchIdx so o with
  | some i => acc.set i (jset (acc.getD i J.jnull) "model" (jgetD o "model" J.jnull))
  | none => acc

/-- All in-place updates of the overrides loop, without the appends. -/
def applyUpd (so a oo : List J) : List J :=
  oo.foldl (applyUpdStep so) a

/-- The overrides of `other` whose predicate matches no override of `self`. -/
def unmatchedOv (so oo : List J) : List J :=
  oo.filter (fun o => (modelMatchIdx so o).isNone)

theorem applyUpd_length (so oo a : List J) : (applyUpd so a oo).length = a.length := by
  induction oo generalizing a with
  | nil => rfl
  | cons o rest ih =>
    rw [applyUpd, List.foldl_cons, ← applyUpd, ih]
    unfold applyUpdStep
    cases hm : modelMatchIdx so o with
    | some i => simp
    | none => rfl

theorem applyUpd_getD_of_not_hit (so oo a : List J) (i : Nat)
    (h : ∀ o ∈ oo, modelMatchIdx so o ≠ some i) :
    (applyUpd so a oo).getD i J.jnull = a.getD i J.jnull := by
  induction oo generalizing a with
  | nil => rfl
  | cons o rest ih =>
    rw [applyUpd, List.foldl_cons, ← applyUpd]
    rw [ih _ fun o' ho' => h o' (List.mem_cons_of_mem o ho')]
    unfold applyUpdStep
    cases hm : modelMatchIdx so o with
    | none => rfl
    | some j =>
      have hji : j ≠ i := fun he => h o (List.mem_cons_self o rest) (he ▸ hm)
      simp [List.getD, List.getElem?_set, hji]

theorem modelMergeLoop_decompose (so : List J) (oo : List J) :
    ∀ a b : List J, a.length = so.length →
    modelMergeLoop so (a ++ b) oo = applyUpd so a oo ++ b ++ unmatchedOv so oo := by
  induction oo with
  | nil => intro a b _; simp [modelMergeLoop, applyUpd, unmatchedOv]
  | cons o rest ih =>
    intro a b ha
    cases hm : modelMatchIdx so o with
    | some i =>
      have hi : i < so.length := pyFindIdx_lt_length _ _ _ hm
      have hia : i < a.length := by omega
      have hgetD : (a ++ b).getD i J.jnull = a.getD i J.jnull :=
        List.getD_append _ _ _ _ hia
      have hset : ∀ x : J, (a ++ b).set i x = a.set i x ++ b := by
        intro x
        rw [List.set_append]
        simp [hia]
      have hred : modelMergeLoop so (a ++ b) (o :: rest) =
          modelMergeLoop so ((a ++ b).set i
            (jset ((a ++ b).getD i J.jnull) "model" (jgetD o "model" J.jnull))) rest := by
        simp only [modelMergeLoop, hm]
      rw [hred, hgetD, hset]
      rw [ih _ b (by simp [ha])]
      simp [applyUpd, applyUpdStep, unmatchedOv, hm, List.foldl_cons]
    | none =>
      have hred : modelMergeLoop so (a ++ b) (o :: rest) =
          modelMergeLoop so ((a ++ b) ++ [o]) rest := by
        simp only [modelMergeLoop, hm]
      rw [hred, List.append_assoc]
      rw [ih a (b ++ [o]) ha]
      simp [applyUpd, applyUpdStep, unmatchedOv, hm, List.foldl_cons, List.append_assoc]

theorem modelOverridesUnion_eq (a b : J) :
    modelOverridesUnion a b =
      applyUpd (modelOverrides a) (modelOverrides a) (modelOverrides b) ++
        unmatchedOv (modelOverrides a) (modelOverrides b) := by
  have h := modelMergeLoop_decompose (modelOverrides a) (modelOverrides b)
    (modelOverrides a) [] rfl
  simpa [modelOverridesUnion] using h

theorem applyUpd_getD_hit (so a : List J) (i : Nat) (u : List J) (o : J) (w : List J)
    (hia : i < a.length)
    (hm : modelMatchIdx so o = some i)
    (hu : ∀ o' ∈ u, modelMatchIdx so o' ≠ some i)
    (hw : ∀ o' ∈ w, modelMatchIdx so o' ≠ some i) :
    (applyUpd so a (u ++ o :: w)).getD i J.jnull =
      jset (a.getD i J.jnull) "model" (jgetD o "model" J.jnull) := by
  rw [applyUpd, List.foldl_append, List.foldl_cons, ← applyUpd, ← applyUpd]
  rw [applyUpd_getD_of_not_hit so w _ i hw]
  unfold applyUpdStep
  rw [hm]
  have hlen : (applyUpd so a u).length = a.length := applyUpd_length so u a
  have hiu : i < (applyUpd so a u).length := by omega
  rw [show ((applyUpd so a u).set i
      (jset ((applyUpd so a u).getD i J.jnull) "model" (jgetD o "model" J.jnull))).getD i J.jnull =
      jset ((applyUpd so a u).getD i J.jnull) "model" (jgetD o "model" J.jnull) from by
    simp [List.getD, List.getElem?_set, hiu]]
  rw [applyUpd_getD_of_not_hit so u a i hu]

/-- Scenario S2: the predicate `{a: 1}`. -/
def s2predA : J := .ocons "a" (.jnum 1) .onil

/-- Scenario S2: the predicate `{a: 2}`. -/
def s2predB : J := .ocons "a" (.jnum 2) .onil

/-- Scenario S2: `{predicate: {a:1}, model: "m1"}`. -/
def s2o1 : J := .ocons "predicate" s2predA (.ocons "model" (.jstr "m1") .onil)

/-- Scenario S2: `{predicate: {a:1}, model: "m2"}`. -/
def s2p1 : J := .ocons "predicate" s2predA (.ocons "model" (.jstr "m2") .onil)

/-- Scenario S2: `{predicate: {a:2}, model: "m3"}`. -/
def s2p2 : J := .ocons "predicate" s2predB (.ocons "model" (.jstr "m3") .onil)

/-- Scenario S2: `self.data` with overrides `[{predicate:{a:1}, model:"m1"}]`. -/
def s2dataA : J := .ocons "overrides" (.acons s2o1 .anil) .onil

/-- Scenario S2: `other.data` with overrides
`[{predicate:{a:1}, model:"m2"}, {predicate:{a:2}, model:"m3"}]`. -/
def s2dataB : J := .ocons "overrides" (.acons s2p1 (.acons s2p2 .anil)) .onil

/-- C5: `Model.merge` returns `True`; in scenario S2 the result equals
`other.data` exactly; in general the result agrees with `other.data` on every
key except `"overrides"`, whose value becomes the union list: self's entries
in place — an entry whose predicate is matched by exactly one incoming
override takes that override's `"model"`, an unmatched entry stays unchanged —
followed by other's predicate-unmatched entries, appended in order. -/
theorem model_merge_spec :
    (modelMerge s2dataA s2dataB = (true, s2dataB)) ∧
    (∀ selfData otherData,
      (modelMerge selfData otherData).1 = true ∧
      (∀ k, k ≠ "overrides" →
        jget (modelMerge selfData otherData).2 k = jget otherData k) ∧
      (isObjSpine otherData = true → modelOverridesUnion selfData otherData ≠ [] →
        jget (modelMerge selfData otherData).2 "overrides" =
          some (aOfList (modelOverridesUnion selfData otherData))) ∧
      (modelOverridesUnion selfData otherData).length =
        (modelOverrides selfData).length +
          (unmatchedOv (modelOverrides selfData) (modelOverrides otherData)).length ∧
      (modelOverridesUnion selfData otherData).drop (modelOverrides selfData).length =
        unmatchedOv (modelOverrides selfData) (modelOverrides otherData) ∧
      (∀ i, i < (modelOverrides selfData).length →
        (∀ o' ∈ modelOverrides otherData,
          modelMatchIdx (modelOverrides selfData) o' ≠ some i) →
        (modelOverridesUnion selfData otherData).getD i J.jnull =
          (modelOverrides selfData).getD i J.jnull) ∧
      (∀ i u o w, modelOverrides otherData = u ++ o :: w →
        modelMatchIdx (modelOverrides selfData) o = some i →
        (∀ o' ∈ u, modelMatchIdx (modelOverrides selfData) o' ≠ some i) →
        (∀ o' ∈ w, modelMatchIdx (modelOverrides selfData) o' ≠ some i) →
        (modelOverridesUnion selfData otherData).getD i J.jnull =
          jset ((modelOverrides selfData).getD i J.jnull) "model"
            (jgetD o "model" J.jnull))) := by
  constructor
  · decide
  · intro selfData otherData
    refine ⟨rfl, ?_, ?_, ?_, ?_, ?_, ?_⟩
    · intro k hk
      by_cases hE : (modelOverridesUnion selfData otherData).isEmpty
      · simp [modelMerge, hE]
      · simp only [modelMerge, if_neg hE]
        exact jget_jset_ne otherData "overrides" k _ hk
    · intro hobj hne
      have hE : (modelOverridesUnion selfData otherData).isEmpty = false := by
        cases h : modelOverridesUnion selfData otherData with
        | nil => exact absurd h hne
        | cons hd t => rfl
      simp only [modelMerge, hE, Bool.false_eq_true, if_false]
      exact jget_jset_self otherData "overrides" _ hobj
    · rw [modelOverridesUnion_eq, List.length_append, applyUpd_length]
    · rw [modelOverridesUnion_eq]
      rw [← applyUpd_length (modelOverrides selfData) (modelOverrides otherData)
        (modelOverrides selfData)]
      exact List.drop_left _ _
    · intro i hi hnot
      rw [modelOverridesUnion_eq]
      rw [List.getD_append _ _ _ _ (by rw [applyUpd_length]; exact hi)]
      exact applyUpd_getD_of_not_hit _ _ _ _ hnot
    · intro i u o w hoo hm hu hw
      have hi : i < (modelOverrides selfData).length := pyFindIdx_lt_length _ _ _ hm
      rw [modelOverridesUnion_eq]
      rw [List.getD_append _ _ _ _ (by rw [applyUpd_length]; exact hi)]
      rw [hoo]
      exact applyUpd_getD_hit _ _ i u o w hi hm hu hw

/-- Witness for `model_merge_spec`: the conditional parts instantiated on the
S2 data. -/
theorem model_merge_spec_witness :
    jget (modelMerge s2dataA s2dataB).2 "parent" = jget s2dataB "parent" ∧
    jget (modelMerge s2dataA s2dataB).2 "overrides" =
      some (aOfList (modelOverridesUnion s2dataA s2dataB)) ∧
    (modelOverridesUnion s2dataA s2dataB).getD 0 J.jnull =
      jset ((modelOverrides s2dataA).getD 0 J.jnull) "model" (jgetD s2p1 "model" J.jnull) := by
  refine ⟨?_, ?_, ?_⟩
  · exact ((model_merge_spec.2 s2dataA s2dataB).2.1 "parent" (by decide))
  · exact ((model_merge_spec.2 s2dataA s2dataB).2.2.1 (by decide) (by decide))
  · exact ((model_merge_spec.2 s2dataA s2dataB).2.2.2.2.2.2 0 [] s2p1 [s2p2]
      (by decide) (by decide)
      (by intro o' h; exact absurd h (List.not_mem_nil o'))
      (by
        intro o' h
        rw [List.mem_singleton] at h
        subst h
        decide))

/-! ## C6: `SoundConfig.merge` (resource_pack.py lines 237–253) -/

/-- The `for sound in other_event.get("sounds", [])` loop: append each
incoming sound unless a `pyEq`-equal one is already in the list. -/
def soundDedupAppend (sounds : List J) : List J → List J
  | [] => sounds
  | s :: rest =>
    if sounds.any (fun x => pyEq x s) then soundDedupAppend sounds rest
    else soundDedupAppend (sounds ++ [s]) rest

/-- The `sounds` union part of the non-replace branch, applied to the
subtitle-updated event. -/
def soundEventSounds (ev1 oev : J) : J :=
  jset ev1 "sounds" (aOfList (soundDedupAppend
    (aToList (jgetD ev1 "sounds" J.anil))
    (aToList (jgetD oev "sounds" J.anil))))

/-- The `if subtitle := other_event.get("subtitle"):` update: assign the
incoming subtitle when it is present and truthy. -/
def soundSubtitleUpd (ev0 oev : J) : J :=
  match jget oev "subtitle" with
  | some s => if truthy s then jset ev0 "subtitle" s else ev0
  | none => ev0

/-- The non-replace branch of `SoundConfig.merge` for one event: update the
subtitle when the incoming one is truthy, then union the sounds lists. -/
def soundEventResult (ev0 oev : J) : J :=
  soundEventSounds (soundSubtitleUpd ev0 oev) oev

theorem soundSubtitleUpd_none (ev0 oev : J) (hs : jget oev "subtitle" = none) :
    soundSubtitleUpd ev0 oev = ev0 := by
  unfold soundSubtitleUpd
  rw [hs]

theorem soundSubtitleUpd_some_true (ev0 oev : J) (s : J)
    (hs : jget oev "subtitle" = some s) (ht : truthy s = true) :
    soundSubtitleUpd ev0 oev = jset ev0 "subtitle" s := by
  unfold soundSubtitleUpd
  rw [hs]
  show (if truthy s = true then jset ev0 "subtitle" s else ev0) = _
  rw [if_pos ht]

theorem soundSubtitleUpd_some_false (ev0 oev : J) (s : J)
    (hs : jget oev "subtitle" = some s) (ht : truthy s = false) :
    soundSubtitleUpd ev0 oev = ev0 := by
  unfold soundSubtitleUpd
  rw [hs]
  show (if truthy s = true then jset ev0 "subtitle" s else ev0) = _
  rw [if_neg (by simp [ht])]

/-- One iteration of the `for key, other_event in other.data.items()` loop of
`SoundConfig.merge`. -/
def soundMergeStep (selfData : J) (key : String) (oev : J) : J :=
  if truthy (jgetD oev "replace" J.jnull) then jset selfData key oev
  else jset selfData key (soundEventResult (jgetD selfData key J.onil) oev)

/-- `SoundConfig.merge`: fold the step over the fields of `other.data` (the
method itself returns `True`). -/
def soundMerge (selfData : J) : J → J
  | .ocons key ev tl => soundMerge (soundMergeStep selfData key ev) tl
  | _ => selfData

/-- The value stored under `key` after `soundMergeStep`. -/
def soundStepValue (selfData : J) (key : String) (oev : J) : J :=
  if truthy (jgetD oev "replace" J.jnull) then oev
  else soundEventResult (jgetD selfData key J.onil) oev

/-- Keys of an object spine, in order. -/
def okeys : J → List String
  | .ocons k _ tl => k :: okeys tl
  | _ => []

theorem isObjSpine_jset (d : J) (k : String) (v : J) (h : isObjSpine d = true) :
    isObjSpine (jset d k v) = true := by
  induction d with
  | ocons k₀ v₀ tl ihv ihtl =>
    by_cases hk : k₀ = k
    · simpa [jset, hk, isObjSpine] using h
    · simp only [jset, if_neg hk, isObjSpine]
      exact ihtl (by simpa [isObjSpine] using h)
  | onil => simp [jset, isObjSpine]
  | _ => simp [isObjSpine] at h

theorem isObjSpine_soundMergeStep (d : J) (k : String) (ev : J)
    (h : isObjSpine d = true) : isObjSpine (soundMergeStep d k ev) = true := by
  unfold soundMergeStep
  by_cases hr : truthy (jgetD ev "replace" J.jnull) = true
  · rw [if_pos hr]
    exact isObjSpine_jset d k ev h
  · rw [if_neg hr]
    exact isObjSpine_jset d k _ h

theorem jget_soundMergeStep_ne (d : J) (k key : String) (ev : J) (h : key ≠ k) :
    jget (soundMergeStep d k ev) key = jget d key := by
  unfold soundMergeStep
  by_cases hr : truthy (jgetD ev "replace" J.jnull) = true
  · rw [if_pos hr]
    exact jget_jset_ne d k key ev h
  · rw [if_neg hr]
    exact jget_jset_ne d k key _ h

theorem jget_soundMergeStep_self (d : J) (key : String) (oev : J)
    (h : isObjSpine d = true) :
    jget (soundMergeStep d key oev) key = some (soundStepValue d key oev) := by
  unfold soundMergeStep soundStepValue
  by_cases hr : truthy (jgetD oev "replace" J.jnull) = true
  · rw [if_pos hr, if_pos hr]
    exact jget_jset_self d key oev h
  · rw [if_neg hr, if_neg hr]
    exact jget_jset_self d key _ h

theorem jget_soundMerge_of_not_mem (other : J) :
    ∀ d key, key ∉ okeys other → jget (soundMerge d other) key = jget d key := by
  induction other with
  | ocons k ev tl ihv ihtl =>
    intro d key hkey
    simp only [okeys, List.mem_cons, not_or] at hkey
    rw [show soundMerge d (J.ocons k ev tl) = soundMerge (soundMergeStep d k ev) tl from rfl]
    rw [ihtl _ key hkey.2]
    exact jget_soundMergeStep_ne d k key ev hkey.1
  | _ =>
    intro d key _
    rfl

theorem jget_soundMerge_of_key (other : J) :
    ∀ d key oev, isObjSpine d = true → (okeys other).Nodup →
    jget other key = some oev →
    jget (soundMerge d other) key = some (soundStepValue d key oev) := by
  induction other with
  | ocons k ev tl ihv ihtl =>
    intro d key oev hobj hnd hget
    simp only [okeys, List.nodup_cons] at hnd
    by_cases hk : k = key
    · subst hk
      have hev : ev = oev := by
        simpa [jget] using hget
      subst hev
      rw [show soundMerge d (J.ocons k ev tl) = soundMerge (soundMergeStep d k ev) tl from rfl]
      rw [jget_soundMerge_of_not_mem tl _ k hnd.1]
      exact jget_soundMergeStep_self d k ev hobj
    · have hget' : jget tl key = some oev := by
        simpa [jget, hk] using hget
      rw [show soundMerge d (J.ocons k ev tl) = soundMerge (soundMergeStep d k ev) tl from rfl]
      rw [ihtl _ key oev (isObjSpine_soundMergeStep d k ev hobj) hnd.2 hget']
      have hne : key ≠ k := fun he => hk he.symm
      unfold soundStepValue
      rw [show jgetD (soundMergeStep d k ev) key J.onil = jgetD d key J.onil from by
        unfold jgetD
        rw [jget_soundMergeStep_ne d k key ev hne]]
  | _ =>
    intro d key oev _ _ hget
    simp [jget] at hget

theorem soundDedupAppend_keeps_old (new : List J) :
    ∀ sounds, ∃ extra, soundDedupAppend sounds new = sounds ++ extra := by
  induction new with
  | nil => intro sounds; exact ⟨[], by simp [soundDedupAppend]⟩
  | cons s rest ih =>
    intro sounds
    unfold soundDedupAppend
    by_cases hs : sounds.any (fun x => pyEq x s) = true
    · rw [if_pos hs]
      exact ih sounds
    · rw [if_neg hs]
      obtain ⟨extra, hextra⟩ := ih (sounds ++ [s])
      exact ⟨s :: extra, by simp [hextra]⟩

/-- Scenario S3: event `foo` of `self` — `{replace: false, sounds: ["a"]}`. -/
def s3evA : J := .ocons "replace" (.jbool false) (.ocons "sounds" (.acons (.jstr "a") .anil) .onil)

/-- Scenario S3: event `foo` of `other` — `{sounds: ["a","b"], subtitle: "s"}`. -/
def s3evB : J :=
  .ocons "sounds" (.acons (.jstr "a") (.acons (.jstr "b") .anil)) (.ocons "subtitle" (.jstr "s") .onil)

/-- Scenario S3: `self.data`. -/
def s3dataA : J := .ocons "foo" s3evA .onil

/-- Scenario S3: `other.data`. -/
def s3dataB : J := .ocons "foo" s3evB .onil

/-- C6 (amended): scenario S3 yields `sounds == ["a","b"]`, `subtitle == "s"`;
in general, per event key of `other`: a `replace: true` event overwrites the
whole entry, an event with absent or `false` replace unions the `sounds` lists
skipping `pyEq`-equal duplicates while keeping self's sounds as a prefix, and
the incoming subtitle overwrites only when it is present *and truthy* — an
absent or falsy subtitle leaves self's subtitle unchanged. -/
theorem sound_config_merge_spec :
    (jget (jgetD (soundMerge s3dataA s3dataB) "foo" J.onil) "sounds" =
        some (.acons (.jstr "a") (.acons (.jstr "b") .anil)) ∧
      jget (jgetD (soundMerge s3dataA s3dataB) "foo" J.onil) "subtitle" =
        some (.jstr "s")) ∧
    (∀ selfData otherData key oev, isObjSpine selfData = true →
      (okeys otherData).Nodup → jget otherData key = some oev →
      (jget oev "replace" = some (.jbool true) →
        jget (soundMerge selfData otherData) key = some oev) ∧
      (jget oev "replace" = none ∨ jget oev "replace" = some (.jbool false) →
        jget (soundMerge selfData otherData) key =
          some (soundEventResult (jgetD selfData key J.onil) oev))) ∧
    (∀ ev0 oev, isObjSpine ev0 = true →
      jget (soundEventResult ev0 oev) "sounds" =
        some (aOfList (soundDedupAppend (aToList (jgetD ev0 "sounds" J.anil))
          (aToList (jgetD oev "sounds" J.anil)))) ∧
      (∀ s, jget oev "subtitle" = some s → truthy s = true →
        jget (soundEventResult ev0 oev) "subtitle" = some s) ∧
      (jget oev "subtitle" = none →
        jget (soundEventResult ev0 oev) "subtitle" = jget ev0 "subtitle") ∧
      (∀ s, jget oev "subtitle" = some s → truthy s = false →
        jget (soundEventResult ev0 oev) "subtitle" = jget ev0 "subtitle")) ∧
    (∀ (sounds new : List J), ∃ extra, soundDedupAppend sounds new = sounds ++ extra) := by
  refine ⟨⟨by decide, by decide⟩, ?_, ?_, fun sounds new => soundDedupAppend_keeps_old new sounds⟩
  · intro selfData otherData key oev hobj hnd hget
    have hmain := jget_soundMerge_of_key otherData selfData key oev hobj hnd hget
    constructor
    · intro hrep
      rw [hmain]
      unfold soundStepValue
      rw [show jgetD oev "replace" J.jnull = .jbool true from by
        unfold jgetD; rw [hrep]; rfl]
      simp [truthy]
    · intro hrep
      rw [hmain]
      unfold soundStepValue
      rcases hrep with hrep | hrep
      · rw [show jgetD oev "replace" J.jnull = J.jnull from by
          unfold jgetD; rw [hrep]; rfl]
        simp [truthy]
      · rw [show jgetD oev "replace" J.jnull = .jbool false from by
          unfold jgetD; rw [hrep]; rfl]
        simp [truthy]
  · intro ev0 oev hobj
    have hsounds : ∀ ev1 : J, isObjSpine ev1 = true →
        jget (soundEventSounds ev1 oev) "sounds" =
          some (aOfList (soundDedupAppend (aToList (jgetD ev1 "sounds" J.anil))
            (aToList (jgetD oev "sounds" J.anil)))) := by
      intro ev1 h1
      unfold soundEventSounds
      exact jget_jset_self ev1 "sounds" _ h1
    refine ⟨?_, ?_, ?_, ?_⟩
    · cases hs : jget oev "subtitle" with
      | none =>
        unfold soundEventResult
        rw [soundSubtitleUpd_none ev0 oev hs]
        exact hsounds ev0 hobj
      | some s =>
        by_cases ht : truthy s = true
        · unfold soundEventResult
          rw [soundSubtitleUpd_some_true ev0 oev s hs ht]
          rw [hsounds _ (isObjSpine_jset ev0 "subtitle" s hobj)]
          rw [show jgetD (jset ev0 "subtitle" s) "sounds" J.anil = jgetD ev0 "sounds" J.anil from by
            unfold jgetD
            rw [jget_jset_ne ev0 "subtitle" "sounds" s (by decide)]]
        · unfold soundEventResult
          rw [soundSubtitleUpd_some_false ev0 oev s hs (by simpa using ht)]
          exact hsounds ev0 hobj
    · intro s hs ht
      unfold soundEventResult
      rw [soundSubtitleUpd_some_true ev0 oev s hs ht]
      unfold soundEventSounds
      rw [jget_jset_ne _ "sounds" "subtitle" _ (by decide)]
      exact jget_jset_self ev0 "subtitle" s hobj
    · intro hs
      unfold soundEventResult
      rw [soundSubtitleUpd_none ev0 oev hs]
      unfold soundEventSounds
      exact jget_jset_ne _ "sounds" "subtitle" _ (by decide)
    · intro s hs ht
      unfold soundEventResult
      rw [soundSubtitleUpd_some_false ev0 oev s hs ht]
      unfold soundEventSounds
      exact jget_jset_ne _ "sounds" "subtitle" _ (by decide)

/-- Counterexample to C6 as stated: `other` provides a *present* subtitle `""`
for event `foo`, yet after the merge self's subtitle is still `"old"` — a
falsy subtitle does not overwrite, because the code guards with
`if subtitle := other_event.get("subtitle"):`. -/
theorem sound_config_merge_counterexample :
    jget (.ocons "subtitle" (.jstr "") (.ocons "sounds" .anil .onil) : J) "subtitle" =
      some (.jstr "") ∧
    jget (jgetD (soundMerge
        (.ocons "foo" (.ocons "subtitle" (.jstr "old") (.ocons "sounds" .anil .onil)) .onil)
        (.ocons "foo" (.ocons "subtitle" (.jstr "") (.ocons "sounds" .anil .onil)) .onil))
      "foo" J.onil) "subtitle" = some (.jstr "old") ∧
    (J.jstr "old" ≠ J.jstr "") := by
  refine ⟨by decide, by decide, by decide⟩

/-- Witness for `sound_config_merge_spec`: the conditional parts applied to the
S3 data. -/
theorem sound_config_merge_spec_witness :
    jget (soundMerge s3dataA s3dataB) "foo" =
      some (soundEventResult (jgetD s3dataA "foo" J.onil) s3evB) ∧
    jget (soundEventResult s3evA s3evB) "subtitle" = some (.jstr "s") := by
  constructor
  · exact ((sound_config_merge_spec.2.1 s3dataA s3dataB "foo" s3evB (by decide)
      (by decide) (by decide)).2 (Or.inl (by decide)))
  · exact ((sound_config_merge_spec.2.2.1 s3evA s3evB (by decide)).2.1
      (.jstr "s") (by decide) (by decide))

/-! ## C3/C4: `Namespace.scan` (base.py lines 579–645) -/

/-- Modelled from the spec: `list_extensions` lives in `beet/library/utils.py`
which is not among the sources; §4.5 says "Compute candidate extensions from
`basename` as the set of all suffixes starting at each `.`, in longest-first
order". -/
def list_extensions (basename : String) : List String :=
  (List.range basename.data.length).filterMap fun i =>
    if basename.data.get? i = some '.' then some ⟨basename.data.drop i⟩ else none

/-- Python `basename[:-len(e)]` for a nonempty extension `e`. -/
def stripExtension (b e : String) : String :=
  ⟨b.data.take (b.data.length - e.data.length)⟩

/-- Python `"/".join(parts)`. -/
def joinSlash : List String → String
  | [] => ""
  | [x] => x
  | x :: xs => x ++ "/" ++ joinSlash xs

/-- The `while path := tuple(scope)` / `for extension in extensions` search of
`Namespace.scan`: `lookupSM` is `scope_map.get`, `srev` is the remaining scope
reversed (the loop pops from the end of the scope with `scope.pop()`), `fdir`
holds the popped segments (`file_dir`). -/
def scanLoop {FT : Type} (lookupSM : List String → String → Option FT)
    (exts : List String) (basename : String) :
    List String → List String → Option (FT × String)
  | [], _ => none
  | s :: rest, fdir =>
    match exts.findSome? (fun e => (lookupSM ((s :: rest).reverse) e).map fun t => (t, e)) with
    | some (t, e) => some (t, joinSlash (fdir ++ [stripExtension basename e]))
    | none => scanLoop lookupSM exts basename rest (s :: fdir)

/-- Classification of one file into a typed container: registry search over
progressively shallower scopes, extensions longest-first at each depth. -/
def classifyTyped {FT : Type} (lookupSM : List String → String → Option FT)
    (scope : List String) (basename : String) : Option (FT × String) :=
  scanLoop lookupSM (list_extensions basename) basename scope.reverse []

/-- Where a scanned path ends up: skipped, installed into the namespace extra
container, or installed into a typed container. -/
inductive ScanOutcome (ET FT : Type) where
  | skipped
  | extraFile (path : String) (t : ET)
  | typedFile (t : FT) (key : String)
  deriving DecidableEq

/-- Per-path processing of `Namespace.scan`: `parts` is
`preparts + filename.parts`.  The `(directory, namespace_dir, *scope,
basename)` destructuring raises `ValueError` (skip) only when there are fewer
than three segments; the namespace-extra check runs before the typed
search. -/
def processPath {ET FT : Type} (dirName : String) (extraInfo : List (String × ET))
    (lookupSM : List String → String → Option FT) (parts : List String) :
    ScanOutcome ET FT :=
  match parts with
  | d :: _nd :: r :: rs =>
    if d = dirName then
      match alGet? extraInfo (joinSlash ((r :: rs).dropLast ++ [(r :: rs).getLastD ""])) with
      | some t => .extraFile (joinSlash ((r :: rs).dropLast ++ [(r :: rs).getLastD ""])) t
      | none =>
        match classifyTyped lookupSM ((r :: rs).dropLast) ((r :: rs).getLastD "") with
        | some (t, key) => .typedFile t key
        | none => .skipped
    else .skipped
  | _ => .skipped

theorem findSome?_first {α β : Type} (f : α → Option β) (pre : List α) (e : α)
    (post : List α) (y : β) (hpre : ∀ x ∈ pre, f x = none) (he : f e = some y) :
    (pre ++ e :: post).findSome? f = some y := by
  induction pre with
  | nil => simp [List.findSome?_cons, he]
  | cons x xs ih =>
    have hx : f x = none := hpre x (List.mem_cons_self x xs)
    simp only [List.cons_append, List.findSome?_cons, hx]
    exact ih fun x' hx' => hpre x' (List.mem_cons_of_mem x hx')

theorem scanLoop_hit {FT : Type} (lookupSM : List String → String → Option FT)
    (exts : List String) (basename : String) :
    ∀ (srev fdir s₁ s₂ pre : List String) (e : String) (post : List String) (t : FT),
    srev.reverse = s₁ ++ s₂ → s₁ ≠ [] →
    exts = pre ++ e :: post →
    lookupSM s₁ e = some t →
    (∀ e' ∈ pre, lookupSM s₁ e' = none) →
    (∀ t₁ t₂ : List String, srev.reverse = t₁ ++ t₂ → s₁.length < t₁.length →
      ∀ e' ∈ exts, lookupSM t₁ e' = none) →
    scanLoop lookupSM exts basename srev fdir =
      some (t, joinSlash ((s₂ ++ fdir) ++ [stripExtension basename e])) := by
  intro srev
  induction srev with
  | nil =>
    intro fdir s₁ s₂ pre e post t hsplit hne _ _ _ _
    simp only [List.reverse_nil] at hsplit
    exact absurd (List.append_eq_nil.1 hsplit.symm).1 hne
  | cons s rest ih =>
    intro fdir s₁ s₂ pre e post t hsplit hne hexts hhit hpre hdeep
    by_cases hs₂ : s₂ = []
    · subst hs₂
      rw [List.append_nil] at hsplit
      have hfind : exts.findSome?
          (fun e' => (lookupSM ((s :: rest).reverse) e').map fun t' => (t', e')) =
          some (t, e) := by
        rw [hexts]
        refine findSome?_first _ pre e post (t, e) ?_ ?_
        · intro x hx
          rw [hsplit, hpre x hx]
          rfl
        · rw [hsplit, hhit]
          rfl
      have hred : scanLoop lookupSM exts basename (s :: rest) fdir =
          some (t, joinSlash (fdir ++ [stripExtension basename e])) := by
        simp only [scanLoop, hfind]
      rw [hred]
      simp
    · have hlast : s₂.dropLast ++ [s₂.getLast hs₂] = s₂ := List.dropLast_append_getLast hs₂
      have hsplit' : rest.reverse ++ [s] = (s₁ ++ s₂.dropLast) ++ [s₂.getLast hs₂] := by
        rw [List.append_assoc, hlast, ← hsplit]
        simp
      obtain ⟨hrest, hs⟩ := List.append_inj' hsplit' rfl
      have hslast : s = s₂.getLast hs₂ := by
        simpa using hs
      have hdeepC : ∀ e' ∈ exts, lookupSM ((s :: rest).reverse) e' = none := by
        intro e' he'
        refine hdeep ((s :: rest).reverse) [] (by simp) ?_ e' he'
        have h1 : (s :: rest).reverse.length = s₁.length + s₂.length := by
          rw [hsplit, List.length_append]
        have h2 : 0 < s₂.length := List.length_pos.2 hs₂
        omega
      have hfind : exts.findSome?
          (fun e' => (lookupSM ((s :: rest).reverse) e').map fun t' => (t', e')) = none := by
        rw [List.findSome?_eq_none_iff]
        intro x hx
        rw [hdeepC x hx]
        rfl
      have hred : scanLoop lookupSM exts basename (s :: rest) fdir =
          scanLoop lookupSM exts basename rest (s :: fdir) := by
        simp only [scanLoop, hfind]
      rw [hred]
      have hjoin : s₂.dropLast ++ s :: fdir = s₂ ++ fdir := by
        conv_rhs => rw [← hlast]
        rw [hslast, List.append_assoc]
        rfl
      rw [ih (s :: fdir) s₁ s₂.dropLast pre e post t hrest hne hexts hhit hpre ?_]
      · rw [hjoin]
      · intro t₁ t₂ hsp hlen e' he'
        refine hdeep t₁ (t₂ ++ [s]) ?_ hlen e' he'
        rw [show (s :: rest).reverse = rest.reverse ++ [s] by simp, hsp]
        simp

/-- Scenario S6 registry: TextureMcmeta is tag `1` (`.png.mcmeta`), Texture is
tag `2` (`.png`), both under scope `("textures",)`. -/
def s6Map : List String → String → Option Nat := fun sc e =>
  if sc = ["textures"] ∧ e = ".png.mcmeta" then some 1
  else if sc = ["textures"] ∧ e = ".png" then some 2
  else none

/-- C3 (amended): the scanner classifies `assets/mc/textures/block/stone.png.mcmeta`
to TextureMcmeta under key `"block/stone"` (scenario S6); in general the
registry search tries scope depths deepest-first and, within one scope depth,
candidate extensions in their longest-first order, taking the first hit — so
the deepest matching scope wins, and the longest extension only breaks ties
within a single scope depth. -/
theorem scan_priority_spec :
    (processPath "assets" [("sounds.json", (0 : Nat))] s6Map
        ["assets", "mc", "textures", "block", "stone.png.mcmeta"] =
      ScanOutcome.typedFile 1 "block/stone") ∧
    (∀ (FT : Type) (lookupSM : List String → String → Option FT)
      (scope s₁ s₂ pre : List String) (e : String) (post : List String) (t : FT)
      (basename : String),
      scope = s₁ ++ s₂ → s₁ ≠ [] →
      list_extensions basename = pre ++ e :: post →
      lookupSM s₁ e = some t →
      (∀ e' ∈ pre, lookupSM s₁ e' = none) →
      (∀ t₁ t₂ : List String, scope = t₁ ++ t₂ → s₁.length < t₁.length →
        ∀ e' ∈ list_extensions basename, lookupSM t₁ e' = none) →
      classifyTyped lookupSM scope basename =
        some (t, joinSlash (s₂ ++ [stripExtension basename e]))) := by
  constructor
  · decide
  · intro FT lookupSM scope s₁ s₂ pre e post t basename hsplit hne hexts hhit hpre hdeep
    unfold classifyTyped
    have h := scanLoop_hit lookupSM (list_extensions basename) basename scope.reverse []
      s₁ s₂ pre e post t (by rw [List.reverse_reverse]; exact hsplit) hne hexts hhit hpre
      (by
        intro t₁ t₂ hsp hlen e' he'
        rw [List.reverse_reverse] at hsp
        exact hdeep t₁ t₂ hsp hlen e' he')
    simpa using h

/-- Registry where a deeper scope carries a shorter extension: tag `1` under
scope `("textures","block")` with `.mcmeta`, tag `2` under `("textures",)`
with `.png.mcmeta`. -/
def c3DeepMap : List String → String → Option Nat := fun sc e =>
  if sc = ["textures", "block"] ∧ e = ".mcmeta" then some 1
  else if sc = ["textures"] ∧ e = ".png.mcmeta" then some 2
  else none

/-- Counterexample to C3 as stated: for `textures/block/stone.png.mcmeta`,
entry 2 (`.png.mcmeta`, the longest extension) could classify the path (second
conjunct), but the code picks entry 1, whose extension `.mcmeta` is shorter
and whose scope is deeper — scope depth has priority over extension length
across depths. -/
theorem scan_priority_counterexample :
    classifyTyped c3DeepMap ["textures", "block"] "stone.png.mcmeta" =
      some (1, "stone.png") ∧
    classifyTyped
        (fun sc e => if sc = ["textures"] ∧ e = ".png.mcmeta" then some (2 : Nat) else none)
        ["textures", "block"] "stone.png.mcmeta" = some (2, "block/stone") ∧
    ((some ((1 : Nat), "stone.png") : Option (Nat × String)) ≠ some (2, "block/stone")) := by
  refine ⟨by decide, by decide, by decide⟩

/-- Witness for `scan_priority_spec`: the general search theorem applied to
the S6 instance. -/
theorem scan_priority_spec_witness :
    classifyTyped s6Map ["textures", "block"] "stone.png.mcmeta" =
      some (1, joinSlash (["block"] ++ [stripExtension "stone.png.mcmeta" ".png.mcmeta"])) := by
  refine scan_priority_spec.2 Nat s6Map ["textures", "block"] ["textures"] ["block"]
    [] ".png.mcmeta" [".mcmeta"] 1 "stone.png.mcmeta" rfl (by decide) (by decide) (by decide)
    (by intro e' he'; simp at he') ?_
  intro t₁ t₂ hsp hlen e' he'
  simp only [List.length_singleton] at hlen
  have hlen2 : t₁.length + t₂.length = 2 := by
    have := congrArg List.length hsp
    simpa using this.symm
  have ht₂ : t₂ = [] := by
    have : t₂.length = 0 := by omega
    exact List.length_eq_zero.mp this
  subst ht₂
  rw [List.append_nil] at hsp
  subst hsp
  have hext : list_extensions "stone.png.mcmeta" = [".png.mcmeta", ".mcmeta"] := by decide
  rw [hext] at he'
  simp only [List.mem_cons, List.mem_singleton, List.not_mem_nil, or_false] at he'
  rcases he' with rfl | rfl <;> decide

/-- C4 (amended): a candidate path with fewer than three segments is skipped
(the destructuring raises `ValueError`); a path with exactly three segments
has an empty scope, so it is never installed into a typed container — it is
either skipped or installed into the namespace extra container. -/
theorem scan_skip_spec :
    ∀ (ET FT : Type) (dirName : String) (extraInfo : List (String × ET))
      (lookupSM : List String → String → Option FT) (parts : List String),
      (parts.length < 3 → processPath dirName extraInfo lookupSM parts = .skipped) ∧
      (parts.length = 3 → processPath dirName extraInfo lookupSM parts = .skipped ∨
        ∃ p t, processPath dirName extraInfo lookupSM parts = .extraFile p t) := by
  intro ET FT dirName extraInfo lookupSM parts
  constructor
  · intro hlen
    match parts with
    | [] => rfl
    | [_] => rfl
    | [_, _] => rfl
    | _ :: _ :: _ :: _ => simp at hlen; omega
  · intro hlen
    cases parts with
    | nil => simp at hlen
    | cons a t1 =>
      cases t1 with
      | nil => simp at hlen
      | cons b t2 =>
        cases t2 with
        | nil => simp at hlen
        | cons c t3 =>
          cases t3 with
          | cons d t4 => simp at hlen
          | nil =>
            by_cases hd : a = dirName
            · cases hx : alGet? extraInfo c with
              | some t =>
                right
                exact ⟨c, t, by simp [processPath, hd, hx, joinSlash]⟩
              | none =>
                left
                simp [processPath, hd, hx, joinSlash, classifyTyped, scanLoop]
            · left
              simp [processPath, hd]

/-- Counterexample to C4 as stated: the three-segment path
`assets/minecraft/sounds.json` is installed into the namespace extra container
(with the `sounds.json` extra registered by `ResourcePackNamespace`), not
skipped. -/
theorem scan_skip_counterexample :
    processPath "assets" [("sounds.json", (0 : Nat))] (fun _ _ => (none : Option Nat))
      ["assets", "minecraft", "sounds.json"] = ScanOutcome.extraFile "sounds.json" 0 ∧
    (["assets", "minecraft", "sounds.json"] : List String).length < 4 ∧
    (ScanOutcome.extraFile "sounds.json" (0 : Nat) ≠ (ScanOutcome.skipped : ScanOutcome Nat Nat)) := by
  refine ⟨by decide, by decide, by decide⟩

/-- Witness for `scan_skip_spec`: both parts applied at concrete paths. -/
theorem scan_skip_spec_witness :
    processPath "assets" ([] : List (String × Nat)) (fun _ _ => (none : Option Nat))
      ["assets", "minecraft"] = ScanOutcome.skipped ∧
    (processPath "assets" ([("sounds.json", (0 : Nat))]) (fun _ _ => (none : Option Nat))
        ["assets", "minecraft", "sounds.json"] = ScanOutcome.skipped ∨
      ∃ p t, processPath "assets" ([("sounds.json", (0 : Nat))]) (fun _ _ => (none : Option Nat))
        ["assets", "minecraft", "sounds.json"] = ScanOutcome.extraFile p t) := by
  constructor
  · exact (scan_skip_spec Nat Nat "assets" [] (fun _ _ => none) ["assets", "minecraft"]).1
      (by decide)
  · exact (scan_skip_spec Nat Nat "assets" [("sounds.json", 0)] (fun _ _ => none)
      ["assets", "minecraft", "sounds.json"]).2 (by decide)

/-! ## C7: merge pruning (base.py lines 505–517 and 1014–1024)

`beet/core/container.py` is not among the sources; the generic
`MergeContainer.merge` walk below is modelled from spec §4.2. -/

/-- Modelled from the spec (§4.2): the generic merge-container walk for
file-valued containers — a missing key inserts the value directly, otherwise
`current.merge(incoming)` resolves it (abstracted as `fstep`): `True` keeps
the merged current file, `False` overwrites with the incoming one, `Drop`
deletes the key.  The Python method returns `True`. -/
def containerMerge {K V : Type} [DecidableEq K] (fstep : V → V → FileMergeRes V)
    (cur other : List (K × V)) : List (K × V) :=
  other.foldl (fun acc kv =>
    match alGet? acc kv.1 with
    | none => alSet acc kv.1 kv.2
    | some c =>
      match fstep c kv.2 with
      | .res true v' => alSet acc kv.1 v'
      | .res false _ => alSet acc kv.1 kv.2
      | .drop => alDel acc kv.1) cur

/-- Modelled from the spec (§4.2): the same walk for container- or
namespace-valued entries, whose `merge` always returns `True` and never raises
`Drop` — a missing key inserts the value wholesale (no pruning inside it),
otherwise the values are merged with `m`. -/
def mergeInto {K A : Type} [DecidableEq K] (m : A → A → A) (cur other : List (K × A)) :
    List (K × A) :=
  other.foldl (fun acc kv =>
    match alGet? acc kv.1 with
    | none => alSet acc kv.1 kv.2
    | some mine => alSet acc kv.1 (m mine kv.2)) cur

/-- A namespace: typed containers keyed by file-type tag, plus the extra
container; file values are abstract. -/
structure NsM (V : Type) where
  typed : List (Nat × List (String × V))
  extra : List (String × V)
  deriving DecidableEq

/-- `Namespace.__bool__` is `False` iff every typed container is empty and the
extra container is empty. -/
def nsIsEmpty {V : Type} (n : NsM V) : Bool :=
  n.typed.all (fun tc => tc.2.isEmpty) && n.extra.isEmpty

/-- `Namespace.merge` (lines 505–517): `super().merge(other)` over the typed
containers, merge the extra containers, then delete the empty typed
containers. -/
def nsMerge {V : Type} (fstep : V → V → FileMergeRes V) (self other : NsM V) : NsM V :=
  { typed := (mergeInto (containerMerge fstep) self.typed other.typed).filter
      (fun tc => !tc.2.isEmpty)
    extra := containerMerge fstep self.extra other.extra }

/-- A pack: namespaces keyed by name, plus the pack extra container. -/
structure PackM (V : Type) where
  nss : List (String × NsM V)
  extra : List (String × V)
  deriving DecidableEq

/-- `Pack.merge` (lines 1014–1024): `super().merge(other)` over the
namespaces (a new name inserts the namespace wholesale), merge the extra
containers, then delete the empty namespaces. -/
def packMerge {V : Type} (fstep : V → V → FileMergeRes V) (self other : PackM V) : PackM V :=
  { nss := (mergeInto (nsMerge fstep) self.nss other.nss).filter
      (fun kv => !nsIsEmpty kv.2)
    extra := containerMerge fstep self.extra other.extra }

theorem mergeInto_nodup {K A : Type} [DecidableEq K] (m : A → A → A) (other : List (K × A)) :
    ∀ cur : List (K × A), (cur.map Prod.fst).Nodup →
    ((mergeInto m cur other).map Prod.fst).Nodup := by
  induction other with
  | nil => intro cur h; exact h
  | cons kv rest ih =>
    intro cur h
    rw [mergeInto, List.foldl_cons, ← mergeInto]
    cases hx : alGet? cur kv.1 with
    | none =>
      simp only [hx]
      exact ih _ (nodup_keys_alSet _ _ _ h)
    | some mine =>
      simp only [hx]
      exact ih _ (nodup_keys_alSet _ _ _ h)

theorem mergeInto_get_untouched {K A : Type} [DecidableEq K] (m : A → A → A)
    (other : List (K × A)) :
    ∀ (cur : List (K × A)) (k : K), k ∉ other.map Prod.fst →
    alGet? (mergeInto m cur other) k = alGet? cur k := by
  induction other with
  | nil => intro cur k _; rfl
  | cons kv rest ih =>
    intro cur k h
    simp only [List.map_cons, List.mem_cons, not_or] at h
    rw [mergeInto, List.foldl_cons, ← mergeInto]
    cases hx : alGet? cur kv.1 with
    | none =>
      simp only [hx]
      rw [ih _ k h.2]
      exact alGet?_alSet_ne _ _ _ _ h.1
    | some mine =>
      simp only [hx]
      rw [ih _ k h.2]
      exact alGet?_alSet_ne _ _ _ _ h.1

theorem mergeInto_get_both {K A : Type} [DecidableEq K] (m : A → A → A)
    (other : List (K × A)) :
    ∀ (cur : List (K × A)) (k : K) (c v : A),
    (other.map Prod.fst).Nodup →
    alGet? cur k = some c → alGet? other k = some v →
    alGet? (mergeInto m cur other) k = some (m c v) := by
  induction other with
  | nil => intro cur k c v _ _ hv; simp [alGet?] at hv
  | cons kv rest ih =>
    intro cur k c v hnd hc hv
    obtain ⟨k₀, v₀⟩ := kv
    simp only [List.map_cons, List.nodup_cons] at hnd
    by_cases hk : k₀ = k
    · subst hk
      have hv0 : v₀ = v := by simpa [alGet?] using hv
      subst hv0
      rw [mergeInto, List.foldl_cons, ← mergeInto]
      simp only [hc]
      rw [mergeInto_get_untouched m rest _ k₀ hnd.1]
      exact alGet?_alSet_self _ _ _
    · have hv' : alGet? rest k = some v := by simpa [alGet?, hk] using hv
      have hkk : k ≠ k₀ := fun he => hk he.symm
      rw [mergeInto, List.foldl_cons, ← mergeInto]
      cases hx : alGet? cur k₀ with
      | none =>
        simp only [hx]
        exact ih _ k c v hnd.2 (by rw [alGet?_alSet_ne _ _ _ _ hkk]; exact hc) hv'
      | some mine =>
        simp only [hx]
        exact ih _ k c v hnd.2 (by rw [alGet?_alSet_ne _ _ _ _ hkk]; exact hc) hv'

theorem alGet?_eq_of_mem_nodup {K V : Type} [DecidableEq K] (l : List (K × V)) (k : K)
    (v : V) (hnd : (l.map Prod.fst).Nodup) (hm : (k, v) ∈ l) : alGet? l k = some v := by
  induction l with
  | nil => simp at hm
  | cons kv rest ih =>
    obtain ⟨k₀, v₀⟩ := kv
    simp only [List.map_cons, List.nodup_cons] at hnd
    rcases List.mem_cons.1 hm with heq | hm'
    · injection heq with h1 h2
      subst h1
      subst h2
      simp [alGet?]
    · by_cases hk : k₀ = k
      · subst hk
        exact absurd (by simpa using List.mem_map_of_mem Prod.fst hm') hnd.1
      · simp only [alGet?, if_neg hk]
        exact ih hnd.2 hm'

theorem nsMerge_typed_ne_nil {V : Type} (fstep : V → V → FileMergeRes V)
    (self other : NsM V) (tc : Nat × List (String × V))
    (h : tc ∈ (nsMerge fstep self other).typed) : tc.2 ≠ [] := by
  have hp := (List.mem_filter.1 h).2
  intro hnil
  rw [hnil] at hp
  simp at hp

/-- C7 (amended): after `Namespace.merge` the namespace contains no empty
typed container; after `Pack.merge` the pack contains no empty namespace, and
any namespace whose name occurs in both packs contains no empty typed
container.  (Namespaces inserted wholesale from `other` under a fresh name are
not internally pruned — see the counterexample.) -/
theorem merge_prune_spec :
    (∀ (V : Type) (fstep : V → V → FileMergeRes V) (self other : NsM V)
      (tc : Nat × List (String × V)),
      tc ∈ (nsMerge fstep self other).typed → tc.2 ≠ []) ∧
    (∀ (V : Type) (fstep : V → V → FileMergeRes V) (self other : PackM V)
      (kv : String × NsM V),
      kv ∈ (packMerge fstep self other).nss → nsIsEmpty kv.2 = false) ∧
    (∀ (V : Type) (fstep : V → V → FileMergeRes V) (self other : PackM V)
      (k : String) (ns : NsM V),
      (self.nss.map Prod.fst).Nodup → (other.nss.map Prod.fst).Nodup →
      alHasKey self.nss k = true → alHasKey other.nss k = true →
      (k, ns) ∈ (packMerge fstep self other).nss →
      ∀ tc ∈ ns.typed, tc.2 ≠ []) := by
  refine ⟨fun V fstep self other tc h => nsMerge_typed_ne_nil fstep self other tc h, ?_, ?_⟩
  · intro V fstep self other kv h
    have hp := (List.mem_filter.1 h).2
    simpa using hp
  · intro V fstep self other k ns hnds hndo hks hko hmem
    obtain ⟨c, hc⟩ := Option.isSome_iff_exists.1 (by simpa [alHasKey] using hks)
    obtain ⟨v, hv⟩ := Option.isSome_iff_exists.1 (by simpa [alHasKey] using hko)
    have hmem' : (k, ns) ∈ mergeInto (nsMerge fstep) self.nss other.nss :=
      (List.mem_filter.1 hmem).1
    have hget := alGet?_eq_of_mem_nodup _ k ns
      (mergeInto_nodup (nsMerge fstep) other.nss self.nss hnds) hmem'
    rw [mergeInto_get_both (nsMerge fstep) other.nss self.nss k c v hndo hc hv] at hget
    injection hget with hns
    subst hns
    intro tc htc
    exact nsMerge_typed_ne_nil fstep c v tc htc

/-- Counterexample to C7 as stated: merging a pack that brings a brand-new
namespace containing an empty typed container (tag 0) next to a non-empty one
(tag 1) — `Pack.merge` inserts the namespace wholesale and only prunes empty
*namespaces*, so the empty typed container survives. -/
theorem merge_prune_counterexample :
    (packMerge (fun c _ => FileMergeRes.res true c)
        (PackM.mk ([] : List (String × NsM Nat)) [])
        (PackM.mk [("ns", NsM.mk [(0, []), (1, [("x", 0)])] [])] [])).nss =
      [("ns", NsM.mk [(0, []), (1, [("x", (0 : Nat))])] [])] ∧
    ((0 : Nat), ([] : List (String × Nat))) ∈
      (NsM.mk [((0 : Nat), ([] : List (String × Nat))), (1, [("x", 0)])]
        ([] : List (String × Nat))).typed := by
  exact ⟨rfl, by decide⟩

/-- Witness for `merge_prune_spec`: the both-names part applied to concrete
packs sharing the namespace `"ns"`. -/
theorem merge_prune_spec_witness :
    ∀ tc ∈ (NsM.mk [((1 : Nat), [("x", (0 : Nat))])] [] : NsM Nat).typed, tc.2 ≠ [] := by
  intro tc htc
  refine merge_prune_spec.2.2 Nat (fun c _ => FileMergeRes.res true c)
    (PackM.mk [("ns", NsM.mk [(1, [("x", 0)])] [])] [])
    (PackM.mk [("ns", NsM.mk [] [])] [])
    "ns" (NsM.mk [(1, [("x", 0)])] []) (by decide) (by decide) (by decide) (by decide)
    ?_ tc htc
  decide

/-! ## C8/C9: `Pack.save` (base.py lines 1203–1267) -/

inductive FsKind where
  | file
  | dir
  deriving DecidableEq

/-- `output_path.exists()` over the abstract filesystem (entries keyed by
path). -/
def fsExists (fs : List (String × FsKind)) (p : String) : Bool :=
  alHasKey fs p

/-- Removal of an existing target (lines 1254–1257): `shutil.rmtree` for a
directory (the path and everything below it), `Path.unlink` for a file. -/
def removeTarget (fs : List (String × FsKind)) (p : String) : List (String × FsKind) :=
  match alGet? fs p with
  | some FsKind.dir => fs.filter (fun e => !(e.1 == p || pyStartswith e.1 (p ++ "/")))
  | _ => fs.filter (fun e => !(e.1 == p))

/-- Writing the pack (lines 1259–1265), abstracted to the entry created at the
output path: a zip file when zipped, a directory tree otherwise (parent-dir
creation and the dumped contents are not modelled). -/
def writePack (fs : List (String × FsKind)) (p : String) (zipped : Bool) :
    List (String × FsKind) :=
  fs ++ [(p, if zipped then FsKind.file else FsKind.dir)]

/-- The overwrite-check-and-write part of `Pack.save` (lines 1249–1267), after
the output path has been resolved; `Except.error` models raising
`PackOverwrite(output_path)`, and `Except.ok` carries the returned path with
the final filesystem. -/
def savePost (fs : List (String × FsKind)) (p : String) (zipped overwrite : Bool) :
    Except String (String × List (String × FsKind)) :=
  if fsExists fs p then
    if !overwrite then .error p
    else .ok (p, writePack (removeTarget fs p) p zipped)
  else .ok (p, writePack fs p zipped)

/-- C8: when the target exists and `overwrite` is false, `save` raises
`PackOverwrite` carrying the output path; when it exists and `overwrite` is
true, the target is removed first — recursively for a directory, a single
unlink for a file, leaving unrelated entries alone — the pack is then written
to that path, and `save` returns it. -/
theorem save_overwrite_spec :
    ∀ (fs : List (String × FsKind)) (p : String) (z : Bool),
    (fsExists fs p = true → savePost fs p z false = Except.error p) ∧
    (fsExists fs p = true →
      savePost fs p z true = Except.ok (p, writePack (removeTarget fs p) p z)) ∧
    (alGet? fs p = some FsKind.dir →
      ∀ q k, (q, k) ∈ removeTarget fs p →
        ¬(q = p ∨ pyStartswith q (p ++ "/") = true)) ∧
    (alGet? fs p = some FsKind.file →
      ∀ q k, (q, k) ∈ removeTarget fs p → q ≠ p ∧ (q, k) ∈ fs) ∧
    (∀ q k, (q, k) ∈ fs → q ≠ p → pyStartswith q (p ++ "/") = false →
      (q, k) ∈ removeTarget fs p) ∧
    ((p, if z then FsKind.file else FsKind.dir) ∈ writePack (removeTarget fs p) p z) ∧
    (∀ q k, (q, k) ∈ writePack (removeTarget fs p) p z →
      (q, k) ∈ removeTarget fs p ∨ (q, k) = (p, if z then FsKind.file else FsKind.dir)) := by
  intro fs p z
  refine ⟨?_, ?_, ?_, ?_, ?_, ?_, ?_⟩
  · intro hex
    simp [savePost, hex]
  · intro hex
    simp [savePost, hex]
  · intro hdir q k hmem
    unfold removeTarget at hmem
    rw [hdir] at hmem
    have hp := (List.mem_filter.1 hmem).2
    simp only [Bool.not_eq_true', Bool.or_eq_false_iff, beq_eq_false_iff_ne] at hp
    rintro (rfl | hsw)
    · exact hp.1 rfl
    · rw [hp.2] at hsw
      cases hsw
  · intro hfile q k hmem
    unfold removeTarget at hmem
    rw [hfile] at hmem
    have h := List.mem_filter.1 hmem
    refine ⟨?_, h.1⟩
    have hp := h.2
    simp only [Bool.not_eq_true', beq_eq_false_iff_ne] at hp
    exact hp
  · intro q k hmem hne hsw
    unfold removeTarget
    cases hget : alGet? fs p with
    | none =>
      refine List.mem_filter.2 ⟨hmem, ?_⟩
      simp [hne]
    | some kind =>
      cases kind with
      | dir =>
        refine List.mem_filter.2 ⟨hmem, ?_⟩
        simp [hne, hsw]
      | file =>
        refine List.mem_filter.2 ⟨hmem, ?_⟩
        simp [hne]
  · simp [writePack]
  · intro q k hmem
    rcases List.mem_append.1 hmem with h | h
    · exact Or.inl h
    · exact Or.inr (List.mem_singleton.1 h)

/-- Witness for `save_overwrite_spec`: the overwrite branches at a concrete
filesystem holding a directory `p` with a child. -/
theorem save_overwrite_spec_witness :
    savePost [("p", FsKind.dir), ("p/a", FsKind.file)] "p" false false = Except.error "p" ∧
    savePost [("p", FsKind.dir), ("p/a", FsKind.file)] "p" false true =
      Except.ok ("p", writePack (removeTarget [("p", FsKind.dir), ("p/a", FsKind.file)] "p")
        "p" false) := by
  constructor
  · exact (save_overwrite_spec [("p", FsKind.dir), ("p/a", FsKind.file)] "p" false).1
      (by decide)
  · exact (save_overwrite_spec [("p", FsKind.dir), ("p/a", FsKind.file)] "p" false).2.1
      (by decide)

/-- Candidate name at iteration `i` of the name-picking loop:
`self.default_name + (str(i) if i else "")`. -/
def nameCandidate (base : String) (i : Nat) : String :=
  base ++ (if i = 0 then "" else toString i)

/-- The `for i in count()` loop of `Pack.save` (lines 1243–1248): the first
candidate whose destination entry (name plus suffix) does not exist; `taken`
is the existence test, and the hypothesis witnesses that the loop terminates
(a finite directory always leaves a candidate free). -/
def pickName (taken : String → Bool) (base suffix : String)
    (h : ∃ i, taken (nameCandidate base i ++ suffix) = false) : String :=
  nameCandidate base (Nat.find h)

/-- C9 (amended): a pack without a name is saved under the first unused
candidate of the sequence `default_name`, `default_name1`, `default_name2`, …
— the candidate for `i = 0` is `default_name` itself, with no digit
appended. -/
theorem save_default_name_spec :
    ∀ (taken : String → Bool) (base suffix : String)
      (h : ∃ i, taken (nameCandidate base i ++ suffix) = false),
      taken (pickName taken base suffix h ++ suffix) = false ∧
      (∀ j, taken (nameCandidate base j ++ suffix) = false → Nat.find h ≤ j) ∧
      pickName taken base suffix h = nameCandidate base (Nat.find h) ∧
      nameCandidate base 0 = base := by
  intro taken base suffix h
  exact ⟨Nat.find_spec h, fun j hj => Nat.find_min' h hj, rfl, by simp [nameCandidate]⟩

/-- Counterexample to C9 as stated: in an empty destination directory the
smallest unused `i` is `0`, so the claimed name would be
`"untitled_resource_pack0"`; the code instead produces
`"untitled_resource_pack"` because `str(i)` is only appended for `i` truthy. -/
theorem save_default_name_counterexample :
    pickName (fun _ => false) "untitled_resource_pack" "" ⟨0, rfl⟩ =
      "untitled_resource_pack" ∧
    ("untitled_resource_pack" : String) ≠ "untitled_resource_pack0" := by
  constructor
  · unfold pickName
    have h0 : Nat.find (⟨0, rfl⟩ : ∃ i,
        (fun _ => false) (nameCandidate "untitled_resource_pack" i ++ "") = false) = 0 := by
      rw [Nat.find_eq_zero]
    rw [h0]
    simp [nameCandidate]
  · decide

/-- Witness for `save_default_name_spec`: a directory where the bare default
name is taken, so the loop settles on index 1. -/
theorem save_default_name_spec_witness :
    (fun s => s == "untitled_resource_pack")
      (pickName (fun s => s == "untitled_resource_pack") "untitled_resource_pack" ""
        ⟨1, by decide⟩ ++ "") = false := by
  exact (save_default_name_spec (fun s => s == "untitled_resource_pack")
    "untitled_resource_pack" "" ⟨1, by decide⟩).1

/-! ## C10: `UnveilMapping` (base.py lines 771–812) -/

/-- Python `s[n:]`. -/
def strDrop (s : String) (n : Nat) : String :=
  ⟨s.data.drop n⟩

/-- An `UnveilMapping`: an underlying files mapping plus a prefix (the
`prefix` attribute). -/
structure UnveilMappingM (V : Type) where
  files : List (String × V)
  pfx : String

/-- `UnveilMapping.with_prefix`. -/
def withPfx {V : Type} (m : UnveilMappingM V) (p : String) : UnveilMappingM V :=
  ⟨m.files, p⟩

/-- `UnveilMapping.__len__`: the size of the underlying mapping, regardless of
the prefix. -/
def umLen {V : Type} (m : UnveilMappingM V) : Nat :=
  m.files.length

/-- `UnveilMapping.__iter__`: the yielded keys in order — with a prefix, only
the keys under it, re-rooted (the key equal to the prefix becomes `""`). -/
def umIter {V : Type} (m : UnveilMappingM V) : List String :=
  if m.pfx = "" then m.files.map Prod.fst
  else m.files.filterMap fun kv =>
    if kv.1 = m.pfx then some ""
    else if pyStartswith kv.1 (m.pfx ++ "/") then
      some (strDrop kv.1 (m.pfx ++ "/").data.length)
    else none

theorem strDrop_append (q k : String) : strDrop (q ++ k) q.data.length = k := by
  unfold strDrop
  rw [String.data_append, List.drop_left]

theorem eq_append_of_pyStartswith {key q : String} (h : pyStartswith key q = true) :
    key = q ++ strDrop key q.data.length := by
  rw [pyStartswith_iff] at h
  obtain ⟨rest, hrest⟩ := h
  apply String.ext
  rw [String.data_append]
  unfold strDrop
  rw [← hrest]
  simp

/-- C10: with a non-empty prefix, `len` still counts every entry of the
underlying mapping, while iteration yields exactly the re-rooted keys lying
under the prefix (the key equal to the prefix is yielded as `""`); hence `len`
can strictly exceed the number of iterated keys, as on the concrete two-file
mapping re-rooted at `"a"`. -/
theorem unveil_mapping_spec :
    (∀ (V : Type) (files : List (String × V)) (p : String),
      umLen (UnveilMappingM.mk files p) = files.length ∧
      umLen (withPfx (UnveilMappingM.mk files "") p) = files.length) ∧
    (∀ (V : Type) (m : UnveilMappingM V), m.pfx ≠ "" → ∀ k,
      (k ∈ umIter m ↔ (k = "" ∧ m.pfx ∈ m.files.map Prod.fst) ∨
        (m.pfx ++ "/" ++ k) ∈ m.files.map Prod.fst)) ∧
    (umLen (UnveilMappingM.mk [("a/x", 0), ("b/y", (0 : Nat))] "a") = 2 ∧
      umIter (UnveilMappingM.mk [("a/x", 0), ("b/y", (0 : Nat))] "a") = ["x"]) := by
  refine ⟨fun V files p => ⟨rfl, rfl⟩, ?_, by decide, ?_⟩
  · intro V m hp k
    unfold umIter
    rw [if_neg hp]
    constructor
    · intro hk
      obtain ⟨kv, hkv, hf⟩ := List.mem_filterMap.1 hk
      by_cases h1 : kv.1 = m.pfx
      · rw [if_pos h1] at hf
        injection hf with hf
        subst hf
        exact Or.inl ⟨rfl, h1 ▸ List.mem_map_of_mem Prod.fst hkv⟩
      · rw [if_neg h1] at hf
        by_cases h2 : pyStartswith kv.1 (m.pfx ++ "/") = true
        · rw [if_pos h2] at hf
          injection hf with hf
          right
          rw [← hf]
          rw [← eq_append_of_pyStartswith h2]
          exact List.mem_map_of_mem Prod.fst hkv
        · rw [if_neg h2] at hf
          cases hf
    · rintro (⟨rfl, hmem⟩ | hmem)
      · obtain ⟨kv, hkv, h1⟩ := List.mem_map.1 hmem
        refine List.mem_filterMap.2 ⟨kv, hkv, ?_⟩
        rw [if_pos h1]
      · obtain ⟨kv, hkv, h1⟩ := List.mem_map.1 hmem
        refine List.mem_filterMap.2 ⟨kv, hkv, ?_⟩
        have hne : kv.1 ≠ m.pfx := by
          rw [h1]
          intro heq
          have := congrArg (fun s : String => s.data.length) heq
          simp only [String.data_append] at this
          have h1len : ("/" : String).data.length = 1 := rfl
          simp only [List.length_append, h1len] at this
          omega
        rw [if_neg hne]
        have hsw : pyStartswith kv.1 (m.pfx ++ "/") = true := by
          rw [pyStartswith_iff, h1, String.data_append]
          exact ⟨k.data, by simp⟩
        rw [if_pos hsw]
        rw [h1]
        rw [show m.pfx ++ "/" ++ k = (m.pfx ++ "/") ++ k from rfl]
        rw [strDrop_append]
  · decide

/-- Witness for `unveil_mapping_spec`: the iteration characterization applied
to the concrete mapping. -/
theorem unveil_mapping_spec_witness :
    "x" ∈ umIter (UnveilMappingM.mk [("a/x", 0), ("b/y", (0 : Nat))] "a") ∧
    ¬("b/y" ∈ umIter (UnveilMappingM.mk [("a/x", 0), ("b/y", (0 : Nat))] "a")) := by
  constructor
  · exact (unveil_mapping_spec.2.1 Nat (UnveilMappingM.mk [("a/x", 0), ("b/y", 0)] "a")
      (by decide) "x").2 (Or.inr (by decide))
  · intro hmem
    have h := (unveil_mapping_spec.2.1 Nat (UnveilMappingM.mk [("a/x", 0), ("b/y", 0)] "a")
      (by decide) "b/y").1 hmem
    rcases h with ⟨h1, _⟩ | h2
    · exact absurd h1 (by decide)
    · revert h2
      decide

end BeetSpec
